import Mathlib

/-!
Verification development for the SCurV descriptor estimation module
(features/include/pcl/features/scurv.h and tools/scurv_estimation.cpp).

The repository ships the header with declarations and the command-line tool;
the bodies of the free helper functions and of SCurVEstimation::compute are
not part of the sources, so those are modelled from the specification text
(each such definition carries a doc comment starting with
"Modelled from the spec:").  Machine doubles are embedded as exact rationals,
so every definition is executable and every comparison decidable.
-/

/-- Point with position and unit surface normal (pcl::PointNormal). -/
structure PointN where
  x : ℚ
  y : ℚ
  z : ℚ
  normal_x : ℚ
  normal_y : ℚ
  normal_z : ℚ
deriving DecidableEq, Inhabited

/-- A point cloud is an ordered sequence of points. -/
abbrev CloudN := List PointN

/-- The fixed-length output signature type (pcl::SCurVSignature210). -/
structure SCurVSignature210 where
  histogram : List ℚ
deriving DecidableEq, Inhabited

/-- Error kinds of the descriptor computation, from section 7 of the spec. -/
inductive ComputeError where
  | MissingInput
  | InvalidParameter
  | InsufficientNeighbors
  | DegenerateGeometry
deriving DecidableEq, Inhabited

/-- Control point for the piecewise cubic Hermite interpolation (PCHIP):
abscissa x, function value f, derivative value d (struct HermitePoint). -/
structure HermitePoint where
  x : ℚ
  f : ℚ
  d : ℚ
deriving DecidableEq, Inhabited

/-- Modelled from the spec: the body of getNormalizedValue is not in the
sources.  Returns (x - low) / (high - low); fails (none) when high = low
rather than performing the division. -/
def getNormalizedValue (x low high : ℚ) : Option ℚ :=
  if high = low then none else some ((x - low) / (high - low))

/-- Modelled from the spec: the body of getHermiteDerivativeInterpolation is
not in the sources.  Evaluates the standard cubic Hermite basis functions at
the normalized position of xi within the segment from point1.x to point2.x,
using f and d of both endpoints. -/
def getHermiteDerivativeInterpolation (point1 point2 : HermitePoint) (xi : ℚ) : ℚ :=
  let h := point2.x - point1.x
  let t := (xi - point1.x) / h
  point1.f * (2*t^3 - 3*t^2 + 1) + (h * point1.d) * (t^3 - 2*t^2 + t)
    + point2.f * (3*t^2 - 2*t^3) + (h * point2.d) * (t^3 - t^2)

/-- The sign of a rational: 1, -1, or 0. -/
def signOf (a : ℚ) : ℚ :=
  if 0 < a then 1 else if a < 0 then -1 else 0

/-- Modelled from the spec: the body of signMultiplied is not in the sources.
Computes a value whose sign equals the sign of arg1 * arg2 by combining the
signs of the operands, without forming the product. -/
def signMultiplied (arg1 arg2 : ℚ) : ℚ :=
  signOf arg1 * signOf arg2

/-- Interval length between consecutive PCHIP control abscissas. -/
def pchipH (x : List ℚ) (j : ℕ) : ℚ :=
  x.getD (j+1) 0 - x.getD j 0

/-- Finite-difference slope of the data over one PCHIP interval. -/
def pchipDelta (x f : List ℚ) (j : ℕ) : ℚ :=
  (f.getD (j+1) 0 - f.getD j 0) / pchipH x j

/-- Modelled from the spec: interior PCHIP derivative rule.  When the two
adjacent slopes agree in direction (decided through signMultiplied) the
derivative is their weighted harmonic mean; when they disagree or one
vanishes it is zero.  h1, del1 belong to the left interval and h2, del2 to
the right interval. -/
def pchipInterior (h1 h2 del1 del2 : ℚ) : ℚ :=
  if 0 < signMultiplied del1 del2 then
    ((2*h2 + h1) + (h2 + 2*h1)) / ((2*h2 + h1) / del1 + (h2 + 2*h1) / del2)
  else 0

/-- Modelled from the spec: boundary PCHIP derivative rule.  A one-sided
noncentered three-point formula, clamped to preserve shape: set to zero when
its sign disagrees with the adjacent slope, and truncated to three times the
adjacent slope when the two nearest slopes disagree in direction.  h1, del1
belong to the interval adjacent to the boundary and h2, del2 to the next
interval inward. -/
def pchipBoundaryRaw (h1 h2 del1 del2 : ℚ) : ℚ :=
  ((2*h1 + h2) * del1 - h1 * del2) / (h1 + h2)

def pchipBoundary (h1 h2 del1 del2 : ℚ) : ℚ :=
  if signMultiplied (pchipBoundaryRaw h1 h2 del1 del2) del1 ≤ 0 then 0
  else if signMultiplied del1 del2 < 0 ∧ 3 * |del1| < |pchipBoundaryRaw h1 h2 del1 del2| then
    3 * del1
  else pchipBoundaryRaw h1 h2 del1 del2

/-- Modelled from the spec: derivative assigned by setSplinePchip to control
point j of n points.  Fewer than 2 points is an error (modelled as 0);
2 points degrade to the linear slope; otherwise the two boundary points use
the one-sided rule and interior points the harmonic-mean rule. -/
def pchipD (n : ℕ) (x f : List ℚ) (j : ℕ) : ℚ :=
  if n < 2 then 0
  else if n = 2 then pchipDelta x f 0
  else if j = 0 then
    pchipBoundary (pchipH x 0) (pchipH x 1) (pchipDelta x f 0) (pchipDelta x f 1)
  else if j = n - 1 then
    pchipBoundary (pchipH x (n-2)) (pchipH x (n-3)) (pchipDelta x f (n-2)) (pchipDelta x f (n-3))
  else
    pchipInterior (pchipH x (j-1)) (pchipH x j) (pchipDelta x f (j-1)) (pchipDelta x f j)

/-- Modelled from the spec: the body of setSplinePchip is not in the sources.
Computes one derivative per control point from the local finite differences,
clamped so the interpolant preserves monotonicity. -/
def setSplinePchip (n : ℕ) (x f : List ℚ) : List ℚ :=
  (List.range n).map (pchipD n x f)

/-- Cubic Hermite segment on the unit interval with endpoint values f1, f2
and length-scaled endpoint derivatives D1, D2; analysis form of
getHermiteDerivativeInterpolation. -/
def hermite01 (f1 D1 f2 D2 t : ℚ) : ℚ :=
  f1 * (2*t^3 - 3*t^2 + 1) + D1 * (t^3 - 2*t^2 + t)
    + f2 * (3*t^2 - 2*t^3) + D2 * (t^3 - t^2)

/-- The PCHIP curve restricted to the two segments spanned by the three
consecutive control points i, i+1, i+2, with derivatives from
setSplinePchip. -/
def pchipEvalTriple (n i : ℕ) (x f : List ℚ) (xi : ℚ) : ℚ :=
  let d := setSplinePchip n x f
  if xi ≤ x.getD (i+1) 0 then
    getHermiteDerivativeInterpolation
      ⟨x.getD i 0, f.getD i 0, d.getD i 0⟩
      ⟨x.getD (i+1) 0, f.getD (i+1) 0, d.getD (i+1) 0⟩ xi
  else
    getHermiteDerivativeInterpolation
      ⟨x.getD (i+1) 0, f.getD (i+1) 0, d.getD (i+1) 0⟩
      ⟨x.getD (i+2) 0, f.getD (i+2) 0, d.getD (i+2) 0⟩ xi

/-- Minimum of a coordinate over a cloud (0 for an empty cloud). -/
def coordMin (cloud : CloudN) (sel : PointN → ℚ) : ℚ :=
  match cloud with
  | [] => 0
  | p :: rest => rest.foldl (fun m q => min m (sel q)) (sel p)

/-- Maximum of a coordinate over a cloud (0 for an empty cloud). -/
def coordMax (cloud : CloudN) (sel : PointN → ℚ) : ℚ :=
  match cloud with
  | [] => 0
  | p :: rest => rest.foldl (fun m q => max m (sel q)) (sel p)

/-- Whether all points of the cloud coincide (zero bounding extent):
the degenerate-geometry condition of the spec. -/
def zeroExtentB (cloud : CloudN) : Bool :=
  match cloud with
  | [] => true
  | p :: rest => rest.all fun q => decide (q.x = p.x ∧ q.y = p.y ∧ q.z = p.z)

/-- Modelled from the spec: the body of normalizeScale is not in the sources.
Uniformly rescales the cloud so that its bounding extent maps onto the range
from min_range to max_range, preserving relative shape and center. -/
def normalizeScale (cloud : CloudN) (min_range max_range : ℤ) : CloudN :=
  let xmin := coordMin cloud (·.x); let xmax := coordMax cloud (·.x)
  let ymin := coordMin cloud (·.y); let ymax := coordMax cloud (·.y)
  let zmin := coordMin cloud (·.z); let zmax := coordMax cloud (·.z)
  let extent := max (xmax - xmin) (max (ymax - ymin) (zmax - zmin))
  if extent = 0 then cloud
  else
    let s := ((max_range : ℚ) - (min_range : ℚ)) / extent
    let cr := ((min_range : ℚ) + (max_range : ℚ)) / 2
    let cx := (xmin + xmax) / 2
    let cy := (ymin + ymax) / 2
    let cz := (zmin + zmax) / 2
    cloud.map fun p =>
      { p with x := cr + (p.x - cx) * s, y := cr + (p.y - cy) * s, z := cr + (p.z - cz) * s }

/-- Squared Euclidean distance between two points. -/
def sqDist (p q : PointN) : ℚ :=
  (p.x - q.x)^2 + (p.y - q.y)^2 + (p.z - q.z)^2

/-- Indices of the k nearest points of the cloud to p, by Euclidean distance
(the external neighbor-search collaborator of section 6 of the spec,
modelled as an exhaustive search). -/
def kNearestIdx (cloud : CloudN) (p : PointN) (k : ℕ) : List ℕ :=
  let sorted := cloud.enum.mergeSort fun a b => decide (sqDist a.2 p ≤ sqDist b.2 p)
  (sorted.take k).map (·.1)

/-- Local curvature category of a neighborhood. -/
inductive CurvatureCategory where
  | Flat
  | Convex
  | Concave
deriving DecidableEq, Inhabited

/-- Modelled from the spec: per-point curvature classification (section 4.3).
Each neighbor votes with the sign of its out-of-plane displacement combined,
through signMultiplied, with the alignment of its normal with the query
normal; the votes are summed and ties resolve to Flat. -/
def classifyPoint (cloud normals : CloudN) (k idx : ℕ) : CurvatureCategory :=
  let p := cloud.getD idx default
  let np := normals.getD idx default
  let votes := (kNearestIdx cloud p k).foldl
    (fun acc j =>
      let q := cloud.getD j default
      let nq := normals.getD j default
      acc + signMultiplied
        ((q.x - p.x) * np.normal_x + (q.y - p.y) * np.normal_y + (q.z - p.z) * np.normal_z)
        (nq.normal_x * np.normal_x + nq.normal_y * np.normal_y + nq.normal_z * np.normal_z))
    0
  if 0 < votes then .Convex else if votes < 0 then .Concave else .Flat

/-- Bin index of a value in a histogram over the unit range. -/
def binIndex (bins : ℕ) (v : ℚ) : ℕ :=
  min (bins - 1) (Int.toNat ⌊v * (bins : ℚ)⌋)

/-- Modelled from the spec: the distribution accumulator (section 4.4) builds
a coarse histogram of normalized projection values. -/
def histCounts (bins : ℕ) (vals : List ℚ) : List ℚ :=
  (List.range bins).map fun (b : ℕ) =>
    ((vals.filter fun v => binIndex bins v == b).length : ℚ)

/-- Abscissas of the histogram control points: the bin centers. -/
def binCenters (bins : ℕ) : List ℚ :=
  (List.range bins).map fun (b : ℕ) => ((b : ℚ) + 1/2) / (bins : ℚ)

/-- Modelled from the spec: resample the PCHIP curve through the control
points at a fixed number of equally spaced positions. -/
def resampleCurve (n : ℕ) (xs fs : List ℚ) (samples : ℕ) : List ℚ :=
  let d := setSplinePchip n xs fs
  (List.range samples).map fun (m : ℕ) =>
    let t : ℚ := if samples ≤ 1 then 0 else (m : ℚ) / ((samples : ℚ) - 1)
    let j := min (n - 2) (Int.toNat ⌊t * (n : ℚ)⌋)
    getHermiteDerivativeInterpolation
      ⟨xs.getD j 0, fs.getD j 0, d.getD j 0⟩
      ⟨xs.getD (j+1) 0, fs.getD (j+1) 0, d.getD (j+1) 0⟩ t

/-- Normalized projection values of the points of a given curvature
category (the height of each classified point, normalized through
getNormalizedValue to the common unit range). -/
def categoryValues (cloud normals : CloudN) (k : ℕ) (cat : CurvatureCategory) : List ℚ :=
  let zmin := coordMin cloud (·.z)
  let zmax := coordMax cloud (·.z)
  ((List.range cloud.length).filter fun idx => decide (classifyPoint cloud normals k idx = cat)).map
    fun idx => (getNormalizedValue (cloud.getD idx default).z zmin zmax).getD 0

/-- One resampled distribution curve (70 samples) for one curvature
category, from an 8-bin histogram of its normalized projections. -/
def curveForCategory (cloud normals : CloudN) (k : ℕ) (cat : CurvatureCategory) : List ℚ :=
  resampleCurve 8 (binCenters 8) (histCounts 8 (categoryValues cloud normals k cat)) 70

/-- Modelled from the spec: construction of the 210-value signature.  The
spec (section 9) leaves the exact historical layout open and mandates a
documented decomposition summing to 210; this model concatenates three
70-sample resampled distribution curves, one per curvature category, over
the scale-normalized cloud. -/
def makeSignature (k : ℤ) (cloud normals : CloudN) : SCurVSignature210 :=
  let nc := normalizeScale cloud 0 1
  let kk := Int.toNat k
  ⟨curveForCategory nc normals kk .Flat
     ++ curveForCategory nc normals kk .Convex
     ++ curveForCategory nc normals kk .Concave⟩

/-- State of the estimator: neighbor count k plus the bound input cloud and
normals (class SCurVEstimation together with its inherited configuration). -/
structure SCurVEstimation where
  k_ : ℤ
  input_ : Option CloudN
  normals_ : Option CloudN
deriving DecidableEq, Inhabited

/-- The default constructor sets the neighbor count to 19 and binds no
inputs (scurv.h, constructor body). -/
def SCurVEstimation.init : SCurVEstimation :=
  { k_ := 19, input_ := none, normals_ := none }

/-- Modelled from the spec: computeFeature fully populates one signature and
appends it to the output (scurv.h declares it; the body is not in the
sources). -/
def SCurVEstimation.computeFeature (k : ℤ) (cloud normals : CloudN)
    (output : List SCurVSignature210) : List SCurVSignature210 :=
  output ++ [makeSignature k cloud normals]

/-- The missing-input condition of section 7: cloud or normals not bound, or
normals misaligned with the cloud. -/
def missingInputs (est : SCurVEstimation) : Prop :=
  match est.input_, est.normals_ with
  | some cloud, some normals => normals.length ≠ cloud.length
  | _, _ => True

instance (est : SCurVEstimation) : Decidable (missingInputs est) := by
  unfold missingInputs
  rcases est.input_ with _ | c <;> rcases est.normals_ with _ | nrm <;>
    first
      | exact isTrue trivial
      | exact instDecidableNot

/-- Modelled from the spec: the body of SCurVEstimation::compute is not in
the sources.  All precondition checks run, in the order of section 7, before
any per-point work: missing or misaligned inputs, then the k parameter, then
the neighbor count against the cloud size, then degenerate geometry; only
then is computeFeature invoked to append the one signature. -/
def SCurVEstimation.compute (est : SCurVEstimation) (output : List SCurVSignature210) :
    Except ComputeError (List SCurVSignature210) :=
  match est.input_, est.normals_ with
  | some cloud, some normals =>
    if normals.length = cloud.length then
      if est.k_ < 2 then .error .InvalidParameter
      else if (cloud.length : ℤ) < est.k_ then .error .InsufficientNeighbors
      else if zeroExtentB cloud then .error .DegenerateGeometry
      else .ok (SCurVEstimation.computeFeature est.k_ cloud normals output)
    else .error .MissingInput
  | _, _ => .error .MissingInput

/-- Size of the bound input cloud (0 when no cloud is bound). -/
def inputSize (est : SCurVEstimation) : ℕ :=
  match est.input_ with
  | some cloud => cloud.length
  | none => 0

/-- Degeneracy of the bound input cloud (true when no cloud is bound). -/
def inputZeroExtent (est : SCurVEstimation) : Bool :=
  match est.input_ with
  | some cloud => zeroExtentB cloud
  | none => true

/-- The command-line parse collaborator for an integer option: it assigns
the target variable only when the option is present on the command line and
leaves it untouched otherwise (pcl::console::parse_argument contract, as
used by tools/scurv_estimation.cpp). -/
def parseArgumentK (cmdK : Option ℤ) (k : Option ℤ) : Option ℤ :=
  match cmdK with
  | some v => some v
  | none => k

/-- The value held by the local variable k of main at the point of the
comparison k > 1: the local is declared without an initializer, so it is
assigned only by the parse call (scurv_estimation.cpp, lines 112-113). -/
def mainK (cmdK : Option ℤ) : Option ℤ :=
  parseArgumentK cmdK none

/-- The outcome of the comparison k > 1 in main: defined only when the local
k holds a determinate value (scurv_estimation.cpp, line 114). -/
def mainKDecision (cmdK : Option ℤ) : Option Bool :=
  (mainK cmdK).map fun k => decide (1 < k)

/-- The k-option application of main for a determinate parsed value: the
estimator takes the supplied value exactly when it exceeds 1
(scurv_estimation.cpp, lines 114-115). -/
def mainApplyK (est : SCurVEstimation) (k : ℤ) : SCurVEstimation :=
  if 1 < k then { est with k_ := k } else est

/-- The binding step of the compute helper of the tool: the same loaded
cloud is passed to setInputCloud and to setInputNormals
(scurv_estimation.cpp, lines 58-59). -/
def toolCompute (cloud : CloudN) (est : SCurVEstimation) : SCurVEstimation :=
  { est with input_ := some cloud, normals_ := some cloud }

/-- A five-point non-degenerate cloud carrying normals, used as a concrete
scenario input. -/
def cloud5 : CloudN :=
  (List.range 5).map fun (j : ℕ) => { x := (j : ℚ), y := 0, z := 0,
                                      normal_x := 0, normal_y := 0, normal_z := 1 }

/-- A two-point non-degenerate cloud carrying normals. -/
def cloudPair : CloudN :=
  [{ x := 0, y := 0, z := 0, normal_x := 0, normal_y := 0, normal_z := 1 },
   { x := 1, y := 0, z := 0, normal_x := 0, normal_y := 0, normal_z := 1 }]

/-! ### Sign helper lemmas -/

theorem signOf_pos {a : ℚ} (h : 0 < a) : signOf a = 1 := if_pos h

theorem signOf_neg {a : ℚ} (h : a < 0) : signOf a = -1 := by
  unfold signOf
  rw [if_neg (by linarith), if_pos h]

theorem signOf_zero : signOf 0 = 0 := rfl

theorem signOf_mul (a b : ℚ) : signOf (a * b) = signOf a * signOf b := by
  rcases lt_trichotomy 0 a with ha | ha | ha
  · rcases lt_trichotomy 0 b with hb | hb | hb
    · rw [signOf_pos (mul_pos ha hb), signOf_pos ha, signOf_pos hb]
      norm_num
    · subst hb
      rw [mul_zero, signOf_zero, mul_zero]
    · rw [signOf_neg (mul_neg_of_pos_of_neg ha hb), signOf_pos ha, signOf_neg hb]
      norm_num
  · subst ha
    rw [zero_mul, signOf_zero, zero_mul]
  · rcases lt_trichotomy 0 b with hb | hb | hb
    · rw [signOf_neg (mul_neg_of_neg_of_pos ha hb), signOf_neg ha, signOf_pos hb]
      norm_num
    · subst hb
      rw [mul_zero, signOf_zero, mul_zero]
    · rw [signOf_pos (mul_pos_of_neg_of_neg ha hb), signOf_neg ha, signOf_neg hb]
      norm_num

theorem signOf_pos_iff (a : ℚ) : 0 < signOf a ↔ 0 < a := by
  unfold signOf
  split_ifs with h1 h2
  · simp [h1]
  · norm_num [h1]
  · norm_num [h1]

theorem signOf_idem (a : ℚ) : signOf (signOf a) = signOf a := by
  rcases lt_trichotomy 0 a with ha | ha | ha
  · rw [signOf_pos ha, signOf_pos one_pos]
  · subst ha
    rfl
  · rw [signOf_neg ha, signOf_neg (by norm_num : (-1 : ℚ) < 0)]

theorem abs_signOf_le_one (a : ℚ) : |signOf a| ≤ 1 := by
  unfold signOf
  split_ifs <;> norm_num

theorem signMultiplied_pos_iff (a b : ℚ) :
    0 < signMultiplied a b ↔ (0 < a ∧ 0 < b) ∨ (a < 0 ∧ b < 0) := by
  rw [signMultiplied, ← signOf_mul, signOf_pos_iff]
  exact mul_pos_iff

theorem signMultiplied_nonneg_right (a b : ℚ) (h : 0 ≤ signMultiplied a b) (ha : 0 < a) :
    0 ≤ b := by
  by_contra hb
  push_neg at hb
  have : signMultiplied a b = -1 := by
    unfold signMultiplied signOf
    rw [if_pos ha, if_neg (by linarith : ¬ 0 < b), if_pos hb]
    ring
  rw [this] at h
  linarith

/-! ### Hermite segment basic lemmas -/

theorem getHermiteDerivativeInterpolation_eq_hermite01 (p1 p2 : HermitePoint) (xi : ℚ) :
    getHermiteDerivativeInterpolation p1 p2 xi =
      hermite01 p1.f ((p2.x - p1.x) * p1.d) p2.f ((p2.x - p1.x) * p2.d)
        ((xi - p1.x) / (p2.x - p1.x)) := rfl

theorem hermite01_at_zero (f1 D1 f2 D2 : ℚ) : hermite01 f1 D1 f2 D2 0 = f1 := by
  norm_num [hermite01]

theorem hermite01_at_one (f1 D1 f2 D2 : ℚ) : hermite01 f1 D1 f2 D2 1 = f2 := by
  norm_num [hermite01]

theorem getHermite_at_left (p1 p2 : HermitePoint) :
    getHermiteDerivativeInterpolation p1 p2 p1.x = p1.f := by
  rw [getHermiteDerivativeInterpolation_eq_hermite01, sub_self, zero_div, hermite01_at_zero]

theorem getHermite_at_right (p1 p2 : HermitePoint) (hx : p1.x ≠ p2.x) :
    getHermiteDerivativeInterpolation p1 p2 p2.x = p2.f := by
  rw [getHermiteDerivativeInterpolation_eq_hermite01,
    div_self (sub_ne_zero.mpr (Ne.symm hx)), hermite01_at_one]

/-! ### Claims C5, C6, C7 -/

/-- C5: For every pair of Hermite control points with point1.x < point2.x,
getHermiteDerivativeInterpolation returns point1.f exactly at xi = point1.x
and point2.f exactly at xi = point2.x. -/
theorem hermite_endpoint_exactness (point1 point2 : HermitePoint)
    (hx : point1.x < point2.x) :
    getHermiteDerivativeInterpolation point1 point2 point1.x = point1.f ∧
    getHermiteDerivativeInterpolation point1 point2 point2.x = point2.f :=
  ⟨getHermite_at_left point1 point2, getHermite_at_right point1 point2 (ne_of_lt hx)⟩

theorem hermite_endpoint_exactness_witness :
    ((⟨0, 1, 2⟩ : HermitePoint).x < (⟨1, 5, -1⟩ : HermitePoint).x) ∧
    getHermiteDerivativeInterpolation ⟨0, 1, 2⟩ ⟨1, 5, -1⟩ 0 = 1 ∧
    getHermiteDerivativeInterpolation ⟨0, 1, 2⟩ ⟨1, 5, -1⟩ 1 = 5 :=
  ⟨by norm_num, (hermite_endpoint_exactness ⟨0, 1, 2⟩ ⟨1, 5, -1⟩ (by norm_num)).1,
    (hermite_endpoint_exactness ⟨0, 1, 2⟩ ⟨1, 5, -1⟩ (by norm_num)).2⟩

/-- C6: The value returned by signMultiplied is itself the sign of the
mathematical product (so its sign matches the sign of a * b, and it is zero
exactly when either argument is zero), and its magnitude never exceeds 1,
so no overflow-induced sign flip can occur in the exact model: the product
a * b is never formed by the definition, which only combines the two
operand signs. -/
theorem signMultiplied_sign_matches_product (a b : ℚ) :
    signMultiplied a b = signOf (a * b) ∧
    signOf (signMultiplied a b) = signOf (a * b) ∧
    |signMultiplied a b| ≤ 1 := by
  have h1 : signMultiplied a b = signOf (a * b) := (signOf_mul a b).symm
  refine ⟨h1, ?_, ?_⟩
  · rw [h1]
    exact signOf_idem (a * b)
  · rw [signMultiplied]
    calc |signOf a * signOf b| = |signOf a| * |signOf b| := abs_mul _ _
    _ ≤ 1 * 1 := by
        have := abs_signOf_le_one a
        have := abs_signOf_le_one b
        have := abs_nonneg (signOf a)
        have := abs_nonneg (signOf b)
        nlinarith
    _ = 1 := one_mul 1

/-- C7: getNormalizedValue returns (x - low) / (high - low) whenever
high is distinct from low, and signals failure (no value, never a division)
when high equals low; as a function of its arguments it is pure. -/
theorem getNormalizedValue_spec (x low high : ℚ) :
    (high ≠ low → getNormalizedValue x low high = some ((x - low) / (high - low))) ∧
    (high = low → getNormalizedValue x low high = none) := by
  constructor <;> intro h <;> simp [getNormalizedValue, h]

theorem getNormalizedValue_spec_witness :
    getNormalizedValue 3 1 5 = some (1/2) ∧ getNormalizedValue 3 2 2 = none := by
  constructor
  · rw [(getNormalizedValue_spec 3 1 5).1 (by norm_num)]
    norm_num
  · exact (getNormalizedValue_spec 3 2 2).2 rfl

/-! ### Claims C8, C9, C10 about the command-line tool -/

/-- C8: the estimator constructor sets the default neighbor count 19, and
the -k option of main overrides it exactly when the supplied value exceeds
1; any supplied value at most 1 leaves the default in place. -/
theorem cli_k_option_override (k : ℤ) :
    SCurVEstimation.init.k_ = 19 ∧
    (1 < k → (mainApplyK SCurVEstimation.init k).k_ = k) ∧
    (k ≤ 1 → (mainApplyK SCurVEstimation.init k).k_ = 19) := by
  refine ⟨rfl, fun h => ?_, fun h => ?_⟩
  · rw [mainApplyK, if_pos h]
  · rw [mainApplyK, if_neg (not_lt.mpr h)]
    rfl

theorem cli_k_option_override_witness :
    ((1:ℤ) < 5 ∧ (mainApplyK SCurVEstimation.init 5).k_ = 5) ∧
    ((0:ℤ) ≤ 1 ∧ (mainApplyK SCurVEstimation.init 0).k_ = 19) :=
  ⟨⟨by norm_num, (cli_k_option_override 5).2.1 (by norm_num)⟩,
    ⟨by norm_num, (cli_k_option_override 0).2.2 (by norm_num)⟩⟩

/-- C9: when no -k argument is present on the command line, the local
variable k of main is never assigned before the comparison k > 1, so that
comparison reads an indeterminate value (modelled as the absent value). -/
theorem cli_k_uninitialized_read (cmdK : Option ℤ) (h : cmdK = none) :
    mainK cmdK = none ∧ mainKDecision cmdK = none := by
  subst h
  exact ⟨rfl, rfl⟩

theorem cli_k_uninitialized_read_witness :
    mainK none = none ∧ mainKDecision none = none :=
  cli_k_uninitialized_read none rfl

/-! ### Characterization of the compute orchestrator -/

theorem makeSignature_length (k : ℤ) (cloud normals : CloudN) :
    (makeSignature k cloud normals).histogram.length = 210 := by
  simp only [makeSignature, curveForCategory, resampleCurve, List.length_append,
    List.length_map, List.length_range]

theorem compute_missing_iff (est : SCurVEstimation) (out : List SCurVSignature210) :
    SCurVEstimation.compute est out = .error .MissingInput ↔ missingInputs est := by
  obtain ⟨k, inp, nrm⟩ := est
  rcases inp with _ | cloud <;> rcases nrm with _ | normals <;>
    simp only [SCurVEstimation.compute, missingInputs] <;>
    try simp
  split_ifs with h1 h2 h3 h4 <;> simp_all

theorem compute_invalid_iff (est : SCurVEstimation) (out : List SCurVSignature210) :
    SCurVEstimation.compute est out = .error .InvalidParameter ↔
      ¬ missingInputs est ∧ est.k_ < 2 := by
  obtain ⟨k, inp, nrm⟩ := est
  rcases inp with _ | cloud <;> rcases nrm with _ | normals <;>
    simp only [SCurVEstimation.compute, missingInputs] <;>
    try simp
  split_ifs with h1 h2 h3 h4 <;> simp_all

theorem compute_insufficient_iff (est : SCurVEstimation) (out : List SCurVSignature210) :
    SCurVEstimation.compute est out = .error .InsufficientNeighbors ↔
      ¬ missingInputs est ∧ 2 ≤ est.k_ ∧ (inputSize est : ℤ) < est.k_ := by
  obtain ⟨k, inp, nrm⟩ := est
  rcases inp with _ | cloud <;> rcases nrm with _ | normals <;>
    simp only [SCurVEstimation.compute, missingInputs, inputSize] <;>
    try simp
  split_ifs with h1 h2 h3 h4 <;> simp_all [not_lt]

theorem compute_degenerate_iff (est : SCurVEstimation) (out : List SCurVSignature210) :
    SCurVEstimation.compute est out = .error .DegenerateGeometry ↔
      ¬ missingInputs est ∧ 2 ≤ est.k_ ∧ est.k_ ≤ (inputSize est : ℤ) ∧
        inputZeroExtent est = true := by
  obtain ⟨k, inp, nrm⟩ := est
  rcases inp with _ | cloud <;> rcases nrm with _ | normals <;>
    simp only [SCurVEstimation.compute, missingInputs, inputSize, inputZeroExtent] <;>
    try simp
  split_ifs with h1 h2 h3 h4 <;> simp_all [not_lt]

/-! ### Claims C1, C2, C3, C10 -/

/-- C1 (amended): for every input whose precondition checks pass, in
particular every non-degenerate cloud with aligned normals, a valid k and at
least k points, compute yields exactly one signature, and that signature has
exactly 210 values whatever the size of the cloud. -/
theorem compute_yields_one_signature_210 (est : SCurVEstimation)
    (cloud normals : CloudN) (out : List SCurVSignature210)
    (hin : est.input_ = some cloud) (hnm : est.normals_ = some normals)
    (hlen : normals.length = cloud.length) (hk : 2 ≤ est.k_)
    (hsize : est.k_ ≤ (cloud.length : ℤ)) (hdeg : zeroExtentB cloud = false) :
    ∃ sig, SCurVEstimation.compute est out = .ok (out ++ [sig]) ∧
      sig.histogram.length = 210 := by
  refine ⟨makeSignature est.k_ cloud normals, ?_, makeSignature_length _ _ _⟩
  simp only [SCurVEstimation.compute, hin, hnm]
  rw [if_pos hlen, if_neg (by omega : ¬ est.k_ < 2),
    if_neg (by omega : ¬ ((cloud.length : ℤ) < est.k_)),
    if_neg (by simp [hdeg] : ¬ (zeroExtentB cloud = true))]
  rfl

theorem compute_yields_one_signature_210_witness :
    zeroExtentB cloudPair = false ∧
    ∃ sig, SCurVEstimation.compute ⟨2, some cloudPair, some cloudPair⟩ [] =
        .ok ([] ++ [sig]) ∧ sig.histogram.length = 210 :=
  ⟨by decide,
    compute_yields_one_signature_210 ⟨2, some cloudPair, some cloudPair⟩ cloudPair
      cloudPair [] rfl rfl rfl (by decide) (by decide) (by decide)⟩

/-- C1 counterexample: a non-degenerate five-point cloud with aligned
normals under the default neighbor count 19 makes compute fail, so no
signature at all is yielded: the one-signature guarantee does not hold
regardless of the input cloud size. -/
theorem compute_yields_one_signature_210_cex :
    zeroExtentB cloud5 = false ∧
    SCurVEstimation.compute ⟨19, some cloud5, some cloud5⟩ [] =
      .error .InsufficientNeighbors := by
  constructor
  · decide
  · rfl

/-- C2 (amended): the failure checks are prioritized in the order of the
spec: MissingInput exactly when the inputs are absent or misaligned;
otherwise InvalidParameter exactly when k < 2; otherwise
InsufficientNeighbors exactly when the cloud has fewer than k points;
otherwise DegenerateGeometry exactly when the cloud has zero extent.
In particular k = 1 is rejected with InvalidParameter and a 5-point cloud
with k = 19 is rejected with InsufficientNeighbors. -/
theorem compute_error_conditions :
    (∀ (est : SCurVEstimation) (out : List SCurVSignature210),
        SCurVEstimation.compute est out = .error .MissingInput ↔ missingInputs est) ∧
    (∀ (est : SCurVEstimation) (out : List SCurVSignature210),
        SCurVEstimation.compute est out = .error .InvalidParameter ↔
          ¬ missingInputs est ∧ est.k_ < 2) ∧
    (∀ (est : SCurVEstimation) (out : List SCurVSignature210),
        SCurVEstimation.compute est out = .error .InsufficientNeighbors ↔
          ¬ missingInputs est ∧ 2 ≤ est.k_ ∧ (inputSize est : ℤ) < est.k_) ∧
    (∀ (est : SCurVEstimation) (out : List SCurVSignature210),
        SCurVEstimation.compute est out = .error .DegenerateGeometry ↔
          ¬ missingInputs est ∧ 2 ≤ est.k_ ∧ est.k_ ≤ (inputSize est : ℤ) ∧
            inputZeroExtent est = true) ∧
    SCurVEstimation.compute ⟨1, some cloudPair, some cloudPair⟩ [] =
      .error .InvalidParameter ∧
    SCurVEstimation.compute ⟨19, some cloud5, some cloud5⟩ [] =
      .error .InsufficientNeighbors :=
  ⟨compute_missing_iff, compute_invalid_iff, compute_insufficient_iff,
    compute_degenerate_iff, rfl, rfl⟩

theorem compute_error_conditions_witness :
    SCurVEstimation.compute ⟨19, some cloud5, none⟩ [] = .error .MissingInput :=
  (compute_error_conditions.1 ⟨19, some cloud5, none⟩ []).mpr (by simp [missingInputs])

/-- C2 counterexample: with normals absent and a cloud smaller than k the
computation fails with MissingInput, not with InsufficientNeighbors, so the
unprioritized biconditional reading of the claim is false. -/
theorem compute_error_conditions_cex :
    ((cloud5.length : ℤ) < 19) ∧
    SCurVEstimation.compute ⟨19, some cloud5, none⟩ [] = .error .MissingInput ∧
    SCurVEstimation.compute ⟨19, some cloud5, none⟩ [] ≠
      .error .InsufficientNeighbors := by
  refine ⟨by decide, rfl, ?_⟩
  rw [show SCurVEstimation.compute ⟨19, some cloud5, none⟩ [] =
    .error .MissingInput from rfl]
  simp

/-- C3: compute is atomic with respect to its output argument: it either
reports an error, leaving the output untouched, or appends exactly one
fully populated 210-value signature to the given output; no partial output
is ever produced. -/
theorem compute_atomic (est : SCurVEstimation) (out : List SCurVSignature210) :
    (∃ e, SCurVEstimation.compute est out = .error e) ∨
    (∃ sig, SCurVEstimation.compute est out = .ok (out ++ [sig]) ∧
      sig.histogram.length = 210) := by
  obtain ⟨k, inp, nrm⟩ := est
  rcases inp with _ | cloud <;> rcases nrm with _ | normals
  · exact Or.inl ⟨.MissingInput, rfl⟩
  · exact Or.inl ⟨.MissingInput, rfl⟩
  · exact Or.inl ⟨.MissingInput, rfl⟩
  · simp only [SCurVEstimation.compute]
    split_ifs with h1 h2 h3 h4
    · exact Or.inl ⟨.InvalidParameter, rfl⟩
    · exact Or.inl ⟨.InsufficientNeighbors, rfl⟩
    · exact Or.inl ⟨.DegenerateGeometry, rfl⟩
    · exact Or.inr ⟨makeSignature k cloud normals, rfl, makeSignature_length _ _ _⟩
    · exact Or.inl ⟨.MissingInput, rfl⟩

/-- C10: the compute helper of the command-line tool binds the same loaded
cloud as input cloud and as input normals, so the normals are always
index-aligned with the cloud and the missing-input failure of compute is
unreachable through the tool. -/
theorem toolCompute_same_cloud_no_missing (cloud : CloudN) (est : SCurVEstimation)
    (out : List SCurVSignature210) :
    (toolCompute cloud est).input_ = some cloud ∧
    (toolCompute cloud est).normals_ = some cloud ∧
    ¬ missingInputs (toolCompute cloud est) ∧
    SCurVEstimation.compute (toolCompute cloud est) out ≠ .error .MissingInput := by
  have hmi : ¬ missingInputs (toolCompute cloud est) := by
    simp [missingInputs, toolCompute]
  refine ⟨rfl, rfl, hmi, ?_⟩
  rw [Ne, compute_missing_iff]
  exact hmi

theorem toolCompute_same_cloud_no_missing_witness :
    (toolCompute cloudPair SCurVEstimation.init).input_ = some cloudPair ∧
    (toolCompute cloudPair SCurVEstimation.init).normals_ = some cloudPair :=
  ⟨(toolCompute_same_cloud_no_missing cloudPair SCurVEstimation.init []).1,
    (toolCompute_same_cloud_no_missing cloudPair SCurVEstimation.init []).2.1⟩

/-! ### PCHIP monotonicity: unit-interval Hermite segment -/

theorem hermite01_mono (f1 D1 f2 D2 r s : ℚ) (hr : 0 ≤ r) (hrs : r ≤ s) (hs : s ≤ 1)
    (hf : f1 ≤ f2) (hD1 : 0 ≤ D1) (hD1u : D1 ≤ 3 * (f2 - f1))
    (hD2 : 0 ≤ D2) (hD2u : D2 ≤ 3 * (f2 - f1)) :
    hermite01 f1 D1 f2 D2 r ≤ hermite01 f1 D1 f2 D2 s := by
  have hdel : 0 ≤ f2 - f1 := by linarith
  have hs0 : 0 ≤ s := le_trans hr hrs
  have hr1 : r ≤ 1 := le_trans hrs hs
  rw [← sub_nonneg]
  have key : hermite01 f1 D1 f2 D2 s - hermite01 f1 D1 f2 D2 r =
      (s - r) * ((f2 - f1) * (3*(r+s) - 2*(r^2 + r*s + s^2))
        + D1 * (1 - 2*(r+s) + (r^2 + r*s + s^2))
        + D2 * ((r^2 + r*s + s^2) - (r+s))) := by
    simp only [hermite01]
    ring
  rw [key]
  refine mul_nonneg (by linarith) ?_
  have hQ : 0 ≤ r^2 + r*s + s^2 := by
    have hp : 0 ≤ r*s := mul_nonneg hr hs0
    nlinarith [sq_nonneg r, sq_nonneg s]
  rcases le_or_lt 0 (1 - 2*(r+s) + (r^2 + r*s + s^2)) with hA | hA <;>
    rcases le_or_lt 0 ((r^2 + r*s + s^2) - (r+s)) with hB | hB
  · have h3 : 0 ≤ 3*(r+s) - 2*(r^2 + r*s + s^2) := by
      have p1 : 0 ≤ r*(1-r) := mul_nonneg hr (by linarith)
      have p2 : 0 ≤ s*(1-s) := mul_nonneg hs0 (by linarith)
      have p3 : 0 ≤ r*(1-s) := mul_nonneg hr (by linarith)
      have p4 : 0 ≤ s*(1-r) := mul_nonneg hs0 (by linarith)
      nlinarith [p1, p2, p3, p4]
    have t1 := mul_nonneg hdel h3
    have t2 := mul_nonneg hD1 hA
    have t3 := mul_nonneg hD2 hB
    linarith
  · have e : (f2 - f1) * (3*(r+s) - 2*(r^2 + r*s + s^2))
        + D1 * (1 - 2*(r+s) + (r^2 + r*s + s^2))
        + D2 * ((r^2 + r*s + s^2) - (r+s))
        = (f2 - f1) * (r^2 + r*s + s^2)
          + D1 * (1 - 2*(r+s) + (r^2 + r*s + s^2))
          + (3*(f2 - f1) - D2) * (-((r^2 + r*s + s^2) - (r+s))) := by
      ring
    rw [e]
    have t1 : 0 ≤ (f2 - f1) * (r^2 + r*s + s^2) := mul_nonneg hdel hQ
    have t2 : 0 ≤ D1 * (1 - 2*(r+s) + (r^2 + r*s + s^2)) := mul_nonneg hD1 hA
    have t3 : 0 ≤ (3*(f2 - f1) - D2) * (-((r^2 + r*s + s^2) - (r+s))) :=
      mul_nonneg (by linarith) (by linarith)
    exact add_nonneg (add_nonneg t1 t2) t3
  · have h33 : 0 ≤ 3 - 3*(r+s) + (r^2 + r*s + s^2) := by
      nlinarith [sq_nonneg (r+s-2), sq_nonneg (r-s)]
    have e : (f2 - f1) * (3*(r+s) - 2*(r^2 + r*s + s^2))
        + D1 * (1 - 2*(r+s) + (r^2 + r*s + s^2))
        + D2 * ((r^2 + r*s + s^2) - (r+s))
        = (f2 - f1) * (3 - 3*(r+s) + (r^2 + r*s + s^2))
          + (3*(f2 - f1) - D1) * (-(1 - 2*(r+s) + (r^2 + r*s + s^2)))
          + D2 * ((r^2 + r*s + s^2) - (r+s)) := by
      ring
    rw [e]
    have t1 : 0 ≤ (f2 - f1) * (3 - 3*(r+s) + (r^2 + r*s + s^2)) := mul_nonneg hdel h33
    have t2 : 0 ≤ (3*(f2 - f1) - D1) * (-(1 - 2*(r+s) + (r^2 + r*s + s^2))) :=
      mul_nonneg (by linarith) (by linarith)
    have t3 : 0 ≤ D2 * ((r^2 + r*s + s^2) - (r+s)) := mul_nonneg hD2 hB
    exact add_nonneg (add_nonneg t1 t2) t3
  · have h36 : 0 ≤ 3 - 6*(r+s) + 4*(r^2 + r*s + s^2) := by
      nlinarith [sq_nonneg (r+s-1), sq_nonneg (r-s)]
    have e : (f2 - f1) * (3*(r+s) - 2*(r^2 + r*s + s^2))
        + D1 * (1 - 2*(r+s) + (r^2 + r*s + s^2))
        + D2 * ((r^2 + r*s + s^2) - (r+s))
        = (f2 - f1) * (3 - 6*(r+s) + 4*(r^2 + r*s + s^2))
          + (3*(f2 - f1) - D1) * (-(1 - 2*(r+s) + (r^2 + r*s + s^2)))
          + (3*(f2 - f1) - D2) * (-((r^2 + r*s + s^2) - (r+s))) := by
      ring
    rw [e]
    have t1 : 0 ≤ (f2 - f1) * (3 - 6*(r+s) + 4*(r^2 + r*s + s^2)) := mul_nonneg hdel h36
    have t2 : 0 ≤ (3*(f2 - f1) - D1) * (-(1 - 2*(r+s) + (r^2 + r*s + s^2))) :=
      mul_nonneg (by linarith) (by linarith)
    have t3 : 0 ≤ (3*(f2 - f1) - D2) * (-((r^2 + r*s + s^2) - (r+s))) :=
      mul_nonneg (by linarith) (by linarith)
    exact add_nonneg (add_nonneg t1 t2) t3

theorem hermiteSegment_mono (p1 p2 : HermitePoint) (hx : p1.x < p2.x)
    (hf : p1.f ≤ p2.f)
    (hd1 : 0 ≤ p1.d) (hd1u : (p2.x - p1.x) * p1.d ≤ 3 * (p2.f - p1.f))
    (hd2 : 0 ≤ p2.d) (hd2u : (p2.x - p1.x) * p2.d ≤ 3 * (p2.f - p1.f))
    (a b : ℚ) (ha : p1.x ≤ a) (hab : a ≤ b) (hb : b ≤ p2.x) :
    getHermiteDerivativeInterpolation p1 p2 a ≤ getHermiteDerivativeInterpolation p1 p2 b := by
  have hh : 0 < p2.x - p1.x := by linarith
  rw [getHermiteDerivativeInterpolation_eq_hermite01,
    getHermiteDerivativeInterpolation_eq_hermite01]
  apply hermite01_mono
  · exact div_nonneg (by linarith) hh.le
  · exact (div_le_div_iff_of_pos_right hh).mpr (by linarith)
  · exact (div_le_one hh).mpr (by linarith)
  · exact hf
  · exact mul_nonneg hh.le hd1
  · exact hd1u
  · exact mul_nonneg hh.le hd2
  · exact hd2u

/-! ### Bounds on the PCHIP derivatives -/

theorem pchipInterior_bound_right (h1 h2 del1 del2 : ℚ) (hh1 : 0 < h1) (hh2 : 0 < h2)
    (hd2 : 0 ≤ del2) :
    0 ≤ pchipInterior h1 h2 del1 del2 ∧ pchipInterior h1 h2 del1 del2 ≤ 3 * del2 := by
  unfold pchipInterior
  split_ifs with hsig
  · have hpos := (signMultiplied_pos_iff del1 del2).mp hsig
    have hd1p : 0 < del1 := by
      rcases hpos with ⟨h, _⟩ | ⟨_, h⟩
      · exact h
      · linarith
    have hd2p : 0 < del2 := by
      rcases hpos with ⟨_, h⟩ | ⟨_, h⟩
      · exact h
      · linarith
    have hw1 : 0 < 2*h2 + h1 := by linarith
    have hw2 : 0 < h2 + 2*h1 := by linarith
    have hden : 0 < (2*h2 + h1) / del1 + (h2 + 2*h1) / del2 :=
      add_pos (div_pos hw1 hd1p) (div_pos hw2 hd2p)
    constructor
    · exact le_of_lt (div_pos (by linarith) hden)
    · rw [div_le_iff hden]
      have e : 3 * del2 * ((2*h2 + h1) / del1 + (h2 + 2*h1) / del2)
          = 3 * del2 * (2*h2 + h1) / del1 + 3 * (h2 + 2*h1) := by
        field_simp
        ring
      rw [e]
      have hnn : 0 ≤ 3 * del2 * (2*h2 + h1) / del1 :=
        div_nonneg (by positivity) hd1p.le
      linarith
  · exact ⟨le_refl 0, by linarith⟩

theorem pchipInterior_bound_left (h1 h2 del1 del2 : ℚ) (hh1 : 0 < h1) (hh2 : 0 < h2)
    (hd1 : 0 ≤ del1) :
    0 ≤ pchipInterior h1 h2 del1 del2 ∧ pchipInterior h1 h2 del1 del2 ≤ 3 * del1 := by
  unfold pchipInterior
  split_ifs with hsig
  · have hpos := (signMultiplied_pos_iff del1 del2).mp hsig
    have hd1p : 0 < del1 := by
      rcases hpos with ⟨h, _⟩ | ⟨h, _⟩
      · exact h
      · linarith
    have hd2p : 0 < del2 := by
      rcases hpos with ⟨_, h⟩ | ⟨h, _⟩
      · exact h
      · linarith
    have hw1 : 0 < 2*h2 + h1 := by linarith
    have hw2 : 0 < h2 + 2*h1 := by linarith
    have hden : 0 < (2*h2 + h1) / del1 + (h2 + 2*h1) / del2 :=
      add_pos (div_pos hw1 hd1p) (div_pos hw2 hd2p)
    constructor
    · exact le_of_lt (div_pos (by linarith) hden)
    · rw [div_le_iff hden]
      have e : 3 * del1 * ((2*h2 + h1) / del1 + (h2 + 2*h1) / del2)
          = 3 * (2*h2 + h1) + 3 * del1 * (h2 + 2*h1) / del2 := by
        field_simp
        ring
      rw [e]
      have hnn : 0 ≤ 3 * del1 * (h2 + 2*h1) / del2 :=
        div_nonneg (by positivity) hd2p.le
      linarith
  · exact ⟨le_refl 0, by linarith⟩

theorem pchipBoundary_bound (h1 h2 del1 del2 : ℚ) (hh1 : 0 < h1) (hh2 : 0 < h2)
    (hd1 : 0 ≤ del1) :
    0 ≤ pchipBoundary h1 h2 del1 del2 ∧ pchipBoundary h1 h2 del1 del2 ≤ 3 * del1 := by
  unfold pchipBoundary
  split_ifs with hz hc
  · exact ⟨le_refl 0, by linarith⟩
  · exact ⟨by linarith, le_refl _⟩
  · have hzpos : 0 < signMultiplied (pchipBoundaryRaw h1 h2 del1 del2) del1 :=
      lt_of_not_le hz
    have hpos := (signMultiplied_pos_iff _ del1).mp hzpos
    have hdr : 0 < pchipBoundaryRaw h1 h2 del1 del2 := by
      rcases hpos with ⟨h, _⟩ | ⟨_, h⟩
      · exact h
      · linarith
    refine ⟨hdr.le, ?_⟩
    rcases not_and_or.mp hc with hc1 | hc2
    · have hd2 : 0 ≤ del2 :=
        signMultiplied_nonneg_right del1 del2 (not_lt.mp hc1)
          (by rcases hpos with ⟨_, h⟩ | ⟨_, h⟩
              · exact h
              · linarith)
      unfold pchipBoundaryRaw
      rw [div_le_iff₀ (by linarith : (0:ℚ) < h1 + h2)]
      nlinarith [mul_nonneg hh1.le hd2, mul_nonneg hd1 hh2.le, mul_nonneg hd1 hh1.le]
    · have hle : |pchipBoundaryRaw h1 h2 del1 del2| ≤ 3 * |del1| := not_lt.mp hc2
      calc pchipBoundaryRaw h1 h2 del1 del2
          ≤ |pchipBoundaryRaw h1 h2 del1 del2| := le_abs_self _
        _ ≤ 3 * |del1| := hle
        _ = 3 * del1 := by rw [abs_of_nonneg hd1]

/-! ### Accessor lemmas for the PCHIP derivative list -/

theorem setSplinePchip_getD (n : ℕ) (x f : List ℚ) (j : ℕ) (hj : j < n) :
    (setSplinePchip n x f).getD j 0 = pchipD n x f j := by
  simp [setSplinePchip, List.getD_eq_getElem?_getD, List.getElem?_map,
    List.getElem?_range hj]

theorem pchipD_first (n : ℕ) (x f : List ℚ) (hn : 3 ≤ n) :
    pchipD n x f 0 =
      pchipBoundary (pchipH x 0) (pchipH x 1) (pchipDelta x f 0) (pchipDelta x f 1) := by
  unfold pchipD
  rw [if_neg (by omega), if_neg (by omega), if_pos rfl]

theorem pchipD_last (n : ℕ) (x f : List ℚ) (hn : 3 ≤ n) :
    pchipD n x f (n-1) =
      pchipBoundary (pchipH x (n-2)) (pchipH x (n-3))
        (pchipDelta x f (n-2)) (pchipDelta x f (n-3)) := by
  unfold pchipD
  rw [if_neg (by omega), if_neg (by omega), if_neg (by omega), if_pos rfl]

theorem pchipD_interior (n : ℕ) (x f : List ℚ) (j : ℕ) (hn : 3 ≤ n)
    (hj0 : j ≠ 0) (hjn : j ≠ n - 1) :
    pchipD n x f j =
      pchipInterior (pchipH x (j-1)) (pchipH x j)
        (pchipDelta x f (j-1)) (pchipDelta x f j) := by
  unfold pchipD
  rw [if_neg (by omega), if_neg (by omega), if_neg hj0, if_neg hjn]

theorem pchipDelta_nonneg (x f : List ℚ) (j : ℕ) (hh : 0 < pchipH x j)
    (hf : f.getD j 0 ≤ f.getD (j+1) 0) : 0 ≤ pchipDelta x f j :=
  div_nonneg (by linarith) hh.le

theorem pchipDelta_mul (x f : List ℚ) (j : ℕ) (hh : 0 < pchipH x j) :
    pchipDelta x f j * pchipH x j = f.getD (j+1) 0 - f.getD j 0 :=
  div_mul_cancel₀ _ (ne_of_gt hh)

theorem pchip_scale_bound (x f : List ℚ) (j : ℕ) (d : ℚ) (hh : 0 < pchipH x j)
    (hd : d ≤ 3 * pchipDelta x f j) :
    (x.getD (j+1) 0 - x.getD j 0) * d ≤ 3 * (f.getD (j+1) 0 - f.getD j 0) := by
  calc (x.getD (j+1) 0 - x.getD j 0) * d = pchipH x j * d := by rw [pchipH]
    _ ≤ pchipH x j * (3 * pchipDelta x f j) := mul_le_mul_of_nonneg_left hd hh.le
    _ = 3 * (pchipDelta x f j * pchipH x j) := by ring
    _ = 3 * (f.getD (j+1) 0 - f.getD j 0) := by rw [pchipDelta_mul x f j hh]

/-! ### Claim C4: PCHIP monotonicity -/

/-- C4: for every set of control points with strictly increasing abscissas,
the derivatives assigned by setSplinePchip make the piecewise cubic Hermite
interpolant monotonicity-preserving: if three consecutive control values are
nondecreasing, the interpolated curve is nondecreasing everywhere on the
span between those points (no overshoot). -/
theorem setSplinePchip_monotone (n i : ℕ) (x f : List ℚ)
    (hmono : ∀ j, j < n - 1 → x.getD j 0 < x.getD (j+1) 0)
    (hi : i + 2 < n)
    (hf01 : f.getD i 0 ≤ f.getD (i+1) 0) (hf12 : f.getD (i+1) 0 ≤ f.getD (i+2) 0)
    (a b : ℚ) (ha : x.getD i 0 ≤ a) (hab : a ≤ b) (hb : b ≤ x.getD (i+2) 0) :
    pchipEvalTriple n i x f a ≤ pchipEvalTriple n i x f b := by
  have hn3 : 3 ≤ n := by omega
  have hx01 : x.getD i 0 < x.getD (i+1) 0 := hmono i (by omega)
  have hx12 : x.getD (i+1) 0 < x.getD (i+2) 0 := hmono (i+1) (by omega)
  have hH1 : 0 < pchipH x i := by
    unfold pchipH
    linarith
  have hH2 : 0 < pchipH x (i+1) := by
    unfold pchipH
    linarith
  have hdel1 : 0 ≤ pchipDelta x f i := pchipDelta_nonneg x f i hH1 hf01
  have hdel2 : 0 ≤ pchipDelta x f (i+1) := pchipDelta_nonneg x f (i+1) hH2 hf12
  have hdi : 0 ≤ pchipD n x f i ∧ pchipD n x f i ≤ 3 * pchipDelta x f i := by
    rcases Nat.eq_zero_or_pos i with hi0 | hipos
    · subst hi0
      rw [pchipD_first n x f hn3]
      exact pchipBoundary_bound _ _ _ _ hH1 hH2 hdel1
    · have hH0 : 0 < pchipH x (i-1) := by
        have hlt := hmono (i-1) (by omega)
        unfold pchipH
        exact sub_pos.mpr hlt
      rw [pchipD_interior n x f i hn3 (by omega) (by omega)]
      exact pchipInterior_bound_right _ _ _ _ hH0 hH1 hdel1
  have hdi1 : 0 ≤ pchipD n x f (i+1) ∧ pchipD n x f (i+1) ≤ 3 * pchipDelta x f i ∧
      pchipD n x f (i+1) ≤ 3 * pchipDelta x f (i+1) := by
    rw [pchipD_interior n x f (i+1) hn3 (by omega) (by omega)]
    have hL := pchipInterior_bound_left (pchipH x i) (pchipH x (i+1))
      (pchipDelta x f i) (pchipDelta x f (i+1)) hH1 hH2 hdel1
    have hR := pchipInterior_bound_right (pchipH x i) (pchipH x (i+1))
      (pchipDelta x f i) (pchipDelta x f (i+1)) hH1 hH2 hdel2
    exact ⟨hL.1, hL.2, hR.2⟩
  have hdi2 : 0 ≤ pchipD n x f (i+2) ∧ pchipD n x f (i+2) ≤ 3 * pchipDelta x f (i+1) := by
    rcases eq_or_lt_of_le (show i + 2 ≤ n - 1 by omega) with hlast | hlt
    · rw [hlast, pchipD_last n x f hn3]
      have e2 : n - 2 = i + 1 := by omega
      have e3 : n - 3 = i := by omega
      rw [e2, e3]
      exact pchipBoundary_bound _ _ _ _ hH2 hH1 hdel2
    · have hH3 : 0 < pchipH x (i+2) := by
        have hlt' := hmono (i+2) (by omega)
        unfold pchipH
        exact sub_pos.mpr hlt'
      rw [pchipD_interior n x f (i+2) hn3 (by omega) (by omega)]
      have hL := pchipInterior_bound_left (pchipH x (i+1)) (pchipH x (i+2))
        (pchipDelta x f (i+1)) (pchipDelta x f (i+2)) hH2 hH3 hdel2
      exact ⟨hL.1, hL.2⟩
  have hgi : (setSplinePchip n x f).getD i 0 = pchipD n x f i :=
    setSplinePchip_getD n x f i (by omega)
  have hgi1 : (setSplinePchip n x f).getD (i+1) 0 = pchipD n x f (i+1) :=
    setSplinePchip_getD n x f (i+1) (by omega)
  have hgi2 : (setSplinePchip n x f).getD (i+2) 0 = pchipD n x f (i+2) :=
    setSplinePchip_getD n x f (i+2) (by omega)
  have seg1 : ∀ u v : ℚ, x.getD i 0 ≤ u → u ≤ v → v ≤ x.getD (i+1) 0 →
      getHermiteDerivativeInterpolation
        ⟨x.getD i 0, f.getD i 0, pchipD n x f i⟩
        ⟨x.getD (i+1) 0, f.getD (i+1) 0, pchipD n x f (i+1)⟩ u ≤
      getHermiteDerivativeInterpolation
        ⟨x.getD i 0, f.getD i 0, pchipD n x f i⟩
        ⟨x.getD (i+1) 0, f.getD (i+1) 0, pchipD n x f (i+1)⟩ v := by
    intro u v hu huv hv
    exact hermiteSegment_mono
      ⟨x.getD i 0, f.getD i 0, pchipD n x f i⟩
      ⟨x.getD (i+1) 0, f.getD (i+1) 0, pchipD n x f (i+1)⟩ hx01 hf01 hdi.1
      (pchip_scale_bound x f i _ hH1 hdi.2) hdi1.1
      (pchip_scale_bound x f i _ hH1 hdi1.2.1) u v hu huv hv
  have seg2 : ∀ u v : ℚ, x.getD (i+1) 0 ≤ u → u ≤ v → v ≤ x.getD (i+2) 0 →
      getHermiteDerivativeInterpolation
        ⟨x.getD (i+1) 0, f.getD (i+1) 0, pchipD n x f (i+1)⟩
        ⟨x.getD (i+2) 0, f.getD (i+2) 0, pchipD n x f (i+2)⟩ u ≤
      getHermiteDerivativeInterpolation
        ⟨x.getD (i+1) 0, f.getD (i+1) 0, pchipD n x f (i+1)⟩
        ⟨x.getD (i+2) 0, f.getD (i+2) 0, pchipD n x f (i+2)⟩ v := by
    intro u v hu huv hv
    exact hermiteSegment_mono
      ⟨x.getD (i+1) 0, f.getD (i+1) 0, pchipD n x f (i+1)⟩
      ⟨x.getD (i+2) 0, f.getD (i+2) 0, pchipD n x f (i+2)⟩ hx12 hf12 hdi1.1
      (pchip_scale_bound x f (i+1) _ hH2 hdi1.2.2) hdi2.1
      (pchip_scale_bound x f (i+1) _ hH2 hdi2.2) u v hu huv hv
  have hend1 : getHermiteDerivativeInterpolation
      ⟨x.getD i 0, f.getD i 0, pchipD n x f i⟩
      ⟨x.getD (i+1) 0, f.getD (i+1) 0, pchipD n x f (i+1)⟩ (x.getD (i+1) 0) =
      f.getD (i+1) 0 :=
    getHermite_at_right _ _ (ne_of_lt hx01)
  have hend2 : getHermiteDerivativeInterpolation
      ⟨x.getD (i+1) 0, f.getD (i+1) 0, pchipD n x f (i+1)⟩
      ⟨x.getD (i+2) 0, f.getD (i+2) 0, pchipD n x f (i+2)⟩ (x.getD (i+1) 0) =
      f.getD (i+1) 0 :=
    getHermite_at_left _ _
  simp only [pchipEvalTriple]
  rw [hgi, hgi1, hgi2]
  by_cases hA : a ≤ x.getD (i+1) 0 <;> by_cases hB : b ≤ x.getD (i+1) 0
  · rw [if_pos hA, if_pos hB]
    exact seg1 a b ha hab hB
  · rw [if_pos hA, if_neg hB]
    have s1 := seg1 a (x.getD (i+1) 0) ha hA le_rfl
    have s2 := seg2 (x.getD (i+1) 0) b le_rfl (le_of_lt (lt_of_not_le hB)) hb
    rw [hend1] at s1
    rw [hend2] at s2
    exact le_trans s1 s2
  · exact absurd (hab.trans hB) hA
  · rw [if_neg hA, if_neg hB]
    exact seg2 a b (le_of_lt (lt_of_not_le hA)) hab hb

theorem setSplinePchip_monotone_witness :
    (∀ j, j < 3 - 1 → ([0, 1, 2] : List ℚ).getD j 0 < ([0, 1, 2] : List ℚ).getD (j+1) 0) ∧
    pchipEvalTriple 3 0 [0, 1, 2] [0, 1, 3] (1/2) ≤
      pchipEvalTriple 3 0 [0, 1, 2] [0, 1, 3] (3/2) :=
  ⟨by decide,
    setSplinePchip_monotone 3 0 [0, 1, 2] [0, 1, 3] (by decide) (by omega)
      (by decide) (by decide) (1/2) (3/2)
      (by norm_num : (0 : ℚ) ≤ 1/2) (by norm_num : (1 : ℚ)/2 ≤ 3/2)
      (by norm_num : (3 : ℚ)/2 ≤ 2)⟩
